import Mathlib

/-!
Verification of the disseqt timeline-query/integration engine.

This file gives a shallow embedding of the core routines of the repository
(`src/util.rs`, `src/backend_dsv/trigger.rs`, `src/backend_dsv/helpers.rs`,
`src/backend_dsv/adc.rs`, `src/backend_dsv/grad.rs`, `src/backend_dsv/mod.rs`,
`src/backend_pulseq/helpers.rs`, `src/backend_pulseq/mod.rs`) and proves or
refutes the specified properties against it.

Floating-point (`f64`) arithmetic is modelled by exact arithmetic in a linear
ordered field (instantiated at `ℚ` for concrete evaluation and at `ℝ` where
trigonometric functions are involved).  Assertions/panics are modelled by
`Option`-valued constructors returning `none`.  Rust `as usize` casts of
floating values saturate at zero for negative inputs, which is modelled by
`Int.toNat`.
-/

namespace Disseqt

variable {α : Type} [LinearOrderedField α] [FloorRing α]

/-- Rust `f64::clamp(lo, hi)` (for `lo ≤ hi`): `max lo (min x hi)`. -/
def clampv (x lo hi : α) : α := max lo (min x hi)

/-- Rust `f64::round`: round half away from zero. -/
def rustRound (x : α) : ℤ := if x < 0 then -⌊-x + 1/2⌋ else ⌊x + 1/2⌋

/-- The per-sample effective duration used by all sample-summation integrators
(`integrate_free`, `integrate_rf` in `backend_pulseq/helpers.rs`,
`Grad::integrate` and `Rf::integrate` in `backend_dsv`): the full `dwell` when
the sample support lies inside the integration window, otherwise the clamped
interval length.  The asymmetric (edge-only) clamping of the source is
preserved. -/
def sampleDur (tStart tEnd t dwell : α) : α :=
  if tStart ≤ t ∧ t + dwell ≤ tEnd then dwell
  else clampv (t + dwell) tStart tEnd - clampv t tStart tEnd

/-- The closed-form antiderivative of the unit trapezoid used by
`integrate_trap` (`backend_pulseq/helpers.rs`, lines 112-121). -/
def trapAntideriv (rise flat fall t : α) : α :=
  if t ≤ rise then 1/2 * t * t / rise
  else if t ≤ rise + flat then 1/2 * rise + (t - rise)
  else 1/2 * rise + flat + 1/2 * (fall - (rise + flat + fall - t) * (rise + flat + fall - t) / fall)

/-- Source `integrate_trap` (`backend_pulseq/helpers.rs`, lines 111-125): antiderivative
evaluated at the clamped endpoints and subtracted. -/
def integrate_trap (tStart tEnd rise flat fall : α) : α :=
  trapAntideriv rise flat fall (clampv tEnd 0 (rise + flat + fall)) -
    trapAntideriv rise flat fall (clampv tStart 0 (rise + flat + fall))

/-- The loop of `integrate_free` (`backend_pulseq/helpers.rs`, lines 130-155),
over an explicitly indexed sample list.  The `continue` branch skips a sample,
the `break` branch (`t_end <= t`) stops the whole loop. -/
def freeLoop (tStart tEnd dwell : α) : List (ℕ × α) → α
  | [] => 0
  | (i, v) :: rest =>
    if (i : α) * dwell + dwell ≤ tStart then freeLoop tStart tEnd dwell rest
    else if tEnd ≤ (i : α) * dwell then 0
    else v * sampleDur tStart tEnd ((i : α) * dwell) dwell + freeLoop tStart tEnd dwell rest

/-- Source `integrate_free` (`backend_pulseq/helpers.rs`, lines 127-158). -/
def integrate_free (tStart tEnd : α) (shape : List α) (dwell : α) : α :=
  freeLoop tStart tEnd dwell shape.enum

/-- The loop body of `Grad::integrate` (`backend_dsv/grad.rs`, lines 85-110).
It differs from `freeLoop` only in the skip condition, which is strict
(`t + time_step < t_start`). -/
def gradLoop (tStart tEnd step : α) : List (ℕ × α) → α
  | [] => 0
  | (i, v) :: rest =>
    if (i : α) * step + step < tStart then gradLoop tStart tEnd step rest
    else if tEnd ≤ (i : α) * step then 0
    else v * sampleDur tStart tEnd ((i : α) * step) step + gradLoop tStart tEnd step rest

/-- The contribution of sample `i` to `freeLoop`, with the skip and break
branches made pointwise (both yield `0` for the sample). -/
def sampleContrib (tStart tEnd dwell : α) (i : ℕ) : α :=
  if (i : α) * dwell + dwell ≤ tStart then 0
  else if tEnd ≤ (i : α) * dwell then 0
  else sampleDur tStart tEnd ((i : α) * dwell) dwell

/-- The contribution of sample `i` to `gradLoop` (strict skip condition). -/
def gradContrib (tStart tEnd step : α) (i : ℕ) : α :=
  if (i : α) * step + step < tStart then 0
  else if tEnd ≤ (i : α) * step then 0
  else sampleDur tStart tEnd ((i : α) * step) step

/-- One raster gradient channel of the dsv backend (`backend_dsv/grad.rs`):
the decoded physical-unit sample array and its time step. -/
structure Grad (α : Type) where
  amplitude : List α
  time_step : α

/-- Source `Grad::integrate` (`backend_dsv/grad.rs`, lines 79-113): sample summation
starting at index `floor(t_start / time_step)` (saturated at 0). -/
def Grad.integrate (g : Grad α) (tStart tEnd : α) : α :=
  gradLoop tStart tEnd g.time_step (g.amplitude.enum.drop (Int.toNat ⌊tStart / g.time_step⌋))

/-- Source `Grad::sample` (`backend_dsv/grad.rs`, lines 70-77). -/
def Grad.sample (g : Grad α) (t : α) : α :=
  if t < 0 then 0
  else (g.amplitude.getD (Int.toNat (rustRound (t / g.time_step))) 0)

/-- Source `Grad::duration` (`backend_dsv/grad.rs`, lines 43-45). -/
def Grad.duration (g : Grad α) : α := g.time_step * g.amplitude.length

/-! ## Decompressor (`backend_dsv/helpers.rs`, `decompress_shape`) -/

/-- The first pass of `decompress_shape` (lines 105-120): undo the run-length
encoding of the second-derivative stream.  State `a`, `b` are the two previous
samples, `skip` is the repeat-detection cooldown counter.  A repeat count is
cast `as usize`; negative counts are modelled by `Int.toNat` (saturation). -/
def decompressDeriv : List ℤ → ℤ → ℤ → ℕ → List ℤ
  | [], _, _, _ => []
  | s :: rest, a, b, skip =>
    if a = b ∧ skip = 0 then
      List.replicate s.toNat b ++ decompressDeriv rest b s 2
    else
      s :: decompressDeriv rest b s (skip - 1)

/-- The cumulative sum (second pass of `decompress_shape`, lines 131-137),
seeded at `acc = 0`. -/
def cumSum (acc : ℤ) : List ℤ → List ℤ
  | [] => []
  | x :: rest => (acc + x) :: cumSum (acc + x) rest

/-- Source `decompress_shape` (`backend_dsv/helpers.rs`, lines 95-138).  The panic on
a decoded-length mismatch (lines 122-128) is modelled as `none`.  The initial
lookback state is `a = i64::MIN`, `b = i64::MAX` (line 100-101). -/
def decompress_shape (samples : List ℤ) (num_samples : ℕ) : Option (List ℤ) :=
  let deriv := decompressDeriv samples (-(2 ^ 63)) (2 ^ 63 - 1) 0
  if deriv.length = num_samples then some (cumSum 0 deriv) else none

/-! ## TriggerIndex (`backend_dsv/trigger.rs`) -/

/-- The trigger window size `WND` (`trigger.rs`, line 15). -/
def WND : ℕ := 10

section Trigger

variable {β : Type} [Zero β] [DecidableEq β]

/-- Rust `Iterator::position(|&x| x != 0.0)`: index of the first non-zero element. -/
def firstNonzeroIdx : List β → Option ℕ
  | [] => none
  | x :: rest => if x ≠ 0 then some 0 else (firstNonzeroIdx rest).map (· + 1)

/-- The start condition of the window scan (`trigger.rs`, line 27): the first
`WND - 1` samples of the window at `i` are zero and the last one is not. -/
def windowStartCond (samples : List β) (i : ℕ) : Bool :=
  ((samples.drop i).take (WND - 1)).all (fun x => decide (x = 0)) &&
    decide (samples.getD (i + WND - 1) 0 ≠ 0)

/-- The end condition of the window scan (`trigger.rs`, line 30): the first
sample of the window at `i` is non-zero and the remaining `WND - 1` are zero. -/
def windowEndCond (samples : List β) (i : ℕ) : Bool :=
  decide (samples.getD i 0 ≠ 0) &&
    ((samples.drop (i + 1)).take (WND - 1)).all (fun x => decide (x = 0))

/-- The starts recorded by the window scan (`trigger.rs`, lines 26-29).  The
number of windows of size `WND` is `length + 1 - WND` (zero for short lists). -/
def loopStarts (samples : List β) : List ℕ :=
  (List.range (samples.length + 1 - WND)).filterMap
    (fun i => if windowStartCond samples i then some (i + WND - 1) else none)

/-- The ends recorded by the window scan (`trigger.rs`, lines 30-32). -/
def loopEnds (samples : List β) : List ℕ :=
  (List.range (samples.length + 1 - WND)).filterMap
    (fun i => if windowEndCond samples i then some i else none)

/-- The synthetic leading-edge start (`trigger.rs`, lines 21-23): position of
the first non-zero sample among the first `WND - 1` samples. -/
def leadStart (samples : List β) : Option ℕ :=
  firstNonzeroIdx (samples.take (WND - 1))

/-- The synthetic trailing-edge end (`trigger.rs`, lines 36-38): `r` is the
reverse position of the first non-zero sample among the last `WND - 1`
samples; the pushed index is `(n - r).min(n - 1)`. -/
def trailEnd (samples : List β) : Option ℕ :=
  (firstNonzeroIdx (samples.reverse.take (WND - 1))).map
    (fun r => min (samples.length - r) (samples.length - 1))

/-- All recorded starts, in push order. -/
def triggerStarts (samples : List β) : List ℕ :=
  (leadStart samples).toList ++ loopStarts samples

/-- All recorded ends, in push order. -/
def triggerEnds (samples : List β) : List ℕ :=
  loopEnds samples ++ (trailEnd samples).toList

/-- The sorted/non-overlap check (`trigger.rs`, line 53):
`events.windows(2).all(|w| w[0].1 < w[1].0)`. -/
def chainOk : List (ℕ × ℕ) → Bool
  | e1 :: e2 :: rest => decide (e1.2 < e2.1) && chainOk (e2 :: rest)
  | _ => true

/-- Source `Trigger::new` (`backend_dsv/trigger.rs`, lines 10-56).  Each `assert!` is
modelled as `none`: the length assertion (line 18), the starts/ends count
assertion (line 41), the `start < end` assertion inside the zip (line 47) and
the sortedness assertion (line 53). -/
def Trigger.new (samples : List β) : Option (List (ℕ × ℕ)) :=
  if samples.length ≤ WND then none
  else
    let starts := triggerStarts samples
    let ends := triggerEnds samples
    if starts.length ≠ ends.length then none
    else
      let events := starts.zip ends
      if ¬ (events.all fun e => decide (e.1 < e.2)) then none
      else if ¬ chainOk events then none
      else some events

/-- Source `Trigger::events` (`backend_dsv/trigger.rs`, lines 76-98): binary search
for the first event overlapping the index range, one step left if the previous
event still overlaps `i_start`, then `take_while` over the overlap condition.
`slice::binary_search_by_key` on the (sorted, duplicate-free) start keys is
modelled by counting the keys strictly below the probe. -/
def triggerEventsRange (events : List (ℕ × ℕ)) (iStart iEnd : ℕ) : List (ℕ × ℕ) :=
  let c := events.countP (fun e => decide (e.1 < iStart))
  let idx :=
    if events.any (fun e => decide (e.1 = iStart)) then c
    else if 0 < c ∧ iStart < (events.getD (c - 1) (0, 0)).2 then c - 1
    else c
  (events.drop idx).takeWhile (fun e => decide (iStart < e.2) && decide (e.1 < iEnd))

/-- Spec-side description of a window-scan start: "a start is recorded at the
first non-zero sample immediately following `W - 1` consecutive zeros" —
i.e. at index `p + W - 1` for some window position `p` whose first `W - 1`
samples are zero and whose last sample is not. -/
def specWindowStart (samples : List β) (i : ℕ) : Prop :=
  ∃ p, p + WND ≤ samples.length ∧ (∀ j < WND - 1, samples.getD (p + j) 0 = 0) ∧
    samples.getD (p + WND - 1) 0 ≠ 0 ∧ i = p + WND - 1

/-- Spec-side description of the synthetic leading-edge start: the index of
the first non-zero sample of a run that begins without `W - 1` leading
zeros (i.e. within the first `W - 1` samples). -/
def specLeadStart (samples : List β) (i : ℕ) : Prop :=
  i < WND - 1 ∧ i < samples.length ∧ samples.getD i 0 ≠ 0 ∧
    ∀ j < i, samples.getD j 0 = 0

/-- Spec-side description of a window-scan end: "an end is recorded at the
last non-zero sample immediately preceding `W - 1` consecutive zeros". -/
def specWindowEnd (samples : List β) (i : ℕ) : Prop :=
  i + WND ≤ samples.length ∧ samples.getD i 0 ≠ 0 ∧
    ∀ j, 1 ≤ j → j < WND → samples.getD (i + j) 0 = 0

/-- The actual behaviour at the trailing edge: with `r` the number of trailing
zeros (`r < W - 1`, so the final non-zero run has fewer than `W - 1` trailing
zeros), the last non-zero sample sits at index `n - 1 - r` and the emitted end
is `min (n - r) (n - 1)` — one past the last non-zero sample, capped at
`n - 1`; it equals the index of the last non-zero sample only when `r = 0`. -/
def specTrailEnd (samples : List β) (i : ℕ) : Prop :=
  ∃ r, r < WND - 1 ∧ r < samples.length ∧
    samples.getD (samples.length - 1 - r) 0 ≠ 0 ∧
    (∀ q < r, samples.getD (samples.length - 1 - q) 0 = 0) ∧
    i = min (samples.length - r) (samples.length - 1)

end Trigger

/-! ## ADC event enumeration (`backend_dsv/adc.rs`) -/

/-- Rust `(a + step/2..=b).step_by(step)`: `a + step/2, a + 3*step/2, …` up to
`b`.  Empty when the range is empty; total (empty) also for `step = 0`. -/
def rangeStepBy (a b step : ℕ) : List ℕ :=
  if step = 0 ∨ b < a then []
  else (List.range ((b - a) / step + 1)).map (fun k => a + k * step)

/-- The body of the event loop of `Adc::events` (`backend_dsv/adc.rs`, lines
74-101), one trigger interval at a time. -/
def adcEventsStep (time_step : α) (resolution : Option ℕ) (iStart iEnd maxCount : ℕ)
    (samples : List α) (ev : ℕ × ℕ) : List α :=
  let a := max iStart ev.1
  let b := min iEnd ev.2
  match resolution with
  | some res =>
    let adcStart := (a : α) * time_step
    let adcEnd := ((b : α) + 1) * time_step
    let dwell := (adcEnd - adcStart) / (res : α)
    samples ++ ((List.range res).take (maxCount - samples.length)).map
      (fun i => adcStart + ((i : α) + 1/2) * dwell)
  | none =>
    let step := Int.toNat ⌊max (1/100000 / time_step) 1⌋
    samples ++ ((rangeStepBy (a + step / 2) b step).take (maxCount - samples.length)).map
      (fun i => (i : α) * time_step)

/-- Source `Adc::events` (`backend_dsv/adc.rs`, lines 68-104).  `t_start` is mapped to
the index range by `ceil` and `t_end` by `floor` (saturating `as usize`
casts). -/
def adcEvents (trigEvents : List (ℕ × ℕ)) (time_step : α) (resolution : Option ℕ)
    (tStart tEnd : α) (maxCount : ℕ) : List α :=
  let iStart := Int.toNat ⌈tStart / time_step⌉
  let iEnd := Int.toNat ⌊tEnd / time_step⌋
  (triggerEventsRange trigEvents iStart iEnd).foldl
    (adcEventsStep time_step resolution iStart iEnd maxCount) []

/-- Source `Grad::events` (`backend_dsv/grad.rs`, lines 47-58): the raw raster indices
in `[ceil(t_start/step), ceil(t_end/step))`, capped at `max_count`. -/
def gradEvents (time_step : α) (tStart tEnd : α) (maxCount : ℕ) : List α :=
  let iStart := Int.toNat ⌈tStart / time_step⌉
  let iEnd := Int.toNat ⌈tEnd / time_step⌉
  ((List.range (iEnd - iStart)).map (fun k => iStart + k)).take maxCount |>.map
    (fun i => (i : α) * time_step)

/-! ## The dsv sampler (`backend_dsv/mod.rs`, `DsvSequence::sample`) -/

/-- The per-channel state of a `DsvSequence` needed for sampling: decoded RF
amplitude/phase arrays and their raster, the three gradient channels, and the
ADC active/phase arrays and their raster (`backend_dsv/mod.rs`, lines 26-32,
with the fields of `Rf` and `Adc` inlined). -/
structure DsvSeq (α : Type) where
  rfAmp : List α
  rfPhase : List α
  rfStep : α
  rfFreq : α
  gx : Grad α
  gy : Grad α
  gz : Grad α
  adcActive : List Bool
  adcPhase : List α
  adcStep : α
  adcFreq : α

/-- An instantaneous sample (`types/scalar_types.rs`): RF amplitude/phase/
frequency, gradient per channel, ADC active/phase/frequency. -/
structure Sample (α : Type) where
  pulseAmplitude : α
  pulsePhase : α
  pulseFrequency : α
  gradX : α
  gradY : α
  gradZ : α
  adcActive : Bool
  adcPhase : α
  adcFrequency : α

/-- Source `Rf::duration` (`backend_dsv/rf.rs`, lines 55-57): `time_step * len`. -/
def DsvSeq.rfDuration (s : DsvSeq α) : α := s.rfStep * s.rfAmp.length

/-- Source `Adc::duration` (`backend_dsv/adc.rs`, lines 54-56): `time_step * len`. -/
def DsvSeq.adcDuration (s : DsvSeq α) : α := s.adcStep * s.adcActive.length

/-- One time point of `DsvSequence::sample` (`backend_dsv/mod.rs`, lines
103-135): RF and ADC channels are read at index `round(t / time_step)` (a
saturating `as usize` cast) with out-of-bounds reads defaulting, gradients via
`Grad::sample`.  The channel frequencies are reported unconditionally. -/
def dsvSampleOne (s : DsvSeq α) (t : α) : Sample α :=
  let rfIdx := Int.toNat (rustRound (t / s.rfStep))
  let adcIdx := Int.toNat (rustRound (t / s.adcStep))
  { pulseAmplitude := s.rfAmp.getD rfIdx 0
    pulsePhase := s.rfPhase.getD rfIdx 0
    pulseFrequency := s.rfFreq
    gradX := s.gx.sample t
    gradY := s.gy.sample t
    gradZ := s.gz.sample t
    adcActive := s.adcActive.getD adcIdx false
    adcPhase := s.adcPhase.getD adcIdx 0
    adcFrequency := s.adcFreq }

/-! ## The pulseq block backend (`backend_pulseq/mod.rs`), gradient moments -/

/-- A block gradient sub-event (`pulseq_rs::Gradient`): free-form shape or
trapezoid. -/
inductive PGradient (α : Type) where
  | free (amp delay : α) (shape : List α)
  | trap (amp rise flat fall delay : α)

/-- Source `integrate_grad` (`backend_pulseq/helpers.rs`, lines 5-37). -/
def integrate_grad (g : PGradient α) (tStart tEnd blockStart grad_raster : α) : α :=
  match g with
  | .free amp delay shape =>
    amp * integrate_free (tStart - blockStart - delay) (tEnd - blockStart - delay) shape grad_raster
  | .trap amp rise flat fall delay =>
    amp * integrate_trap (tStart - blockStart - delay) (tEnd - blockStart - delay) rise flat fall

/-- The gradient sub-events of one block (`pulseq_rs::Block`, the fields used
by the gradient-moment part of `PulseqSequence::integrate`; the RF sub-event
feeds the spin accumulator, which is treated separately in `util.rs`). -/
structure PBlock (α : Type) where
  gx : Option (PGradient α)
  gy : Option (PGradient α)
  gz : Option (PGradient α)

/-- Rust `slice::binary_search_by` over the sorted block start times followed by
`Ok(idx) => idx, Err(idx) => idx.max(1) - 1` (`backend_pulseq/mod.rs`, lines
228-234): for a sorted, duplicate-free key list the result is the number of
keys strictly below the probe, stepped one back (floored at 0) when there is
no exact match. -/
def blockSearchIdx (starts : List α) (t : α) : ℕ :=
  let c := starts.countP (fun x => decide (x < t))
  if starts.any (fun x => decide (x = t)) then c else max c 1 - 1

/-- The accumulation loop of `PulseqSequence::integrate` (`backend_pulseq/
mod.rs`, lines 242-276) restricted to the gradient moments: scan blocks from
the search index, stop at the first block starting at or after `t_end`.  The
source accumulates left to right into a mutable `grad`; over exact arithmetic
the grouping is immaterial and the loop is written as structural recursion. -/
def pulseqGradLoop (grad_raster tStart tEnd : α) : List (α × PBlock α) → α × α × α
  | [] => (0, 0, 0)
  | (blockStart, block) :: rest =>
    if tEnd ≤ blockStart then (0, 0, 0)
    else
      let m := pulseqGradLoop grad_raster tStart tEnd rest
      let cx := (block.gx.map (fun g => integrate_grad g tStart tEnd blockStart grad_raster)).getD 0
      let cy := (block.gy.map (fun g => integrate_grad g tStart tEnd blockStart grad_raster)).getD 0
      let cz := (block.gz.map (fun g => integrate_grad g tStart tEnd blockStart grad_raster)).getD 0
      (cx + m.1, cy + m.2.1, cz + m.2.2)

/-- The gradient-moment component of `PulseqSequence::integrate`
(`backend_pulseq/mod.rs`, lines 220-289): when `t_end < t_start` the bounds
are swapped and the sign flipped (lines 221-226); the RF spin component of the
source applies the same swap and the same sign factor to its extracted angle
and phase. -/
def pulseqIntegrate (blocks : List (α × PBlock α)) (grad_raster tStart tEnd : α) : α × α × α :=
  let sign : α := if tEnd < tStart then -1 else 1
  let lo := if tEnd < tStart then tEnd else tStart
  let hi := if tEnd < tStart then tStart else tEnd
  let idxStart := blockSearchIdx (blocks.map Prod.fst) lo
  let m := pulseqGradLoop grad_raster lo hi (blocks.drop idxStart)
  (sign * m.1, sign * m.2.1, sign * m.2.2)

/-! ## RotationIntegrator (`src/util.rs`): `Spin` and `Rotation` -/

/-- Rust `f64::atan2(y, x)`, the four-quadrant arctangent with range `(-π, π]`,
modelled by the argument of the complex number `x + y·i` (`atan2(0, 0) = 0`
matches `Complex.arg 0 = 0`). -/
noncomputable def atan2 (y x : ℝ) : ℝ := Complex.arg (x + y * Complex.I)

/-- Source `Spin` (`util.rs`, line 6): the 3-component accumulator state. -/
structure Spin where
  v0 : ℝ
  v1 : ℝ
  v2 : ℝ

/-- Source `Spin::relaxed` (`util.rs`, lines 9-11): `(0, 0, 1)`. -/
def Spin.relaxed : Spin := ⟨0, 0, 1⟩

/-- Source `Spin::norm` (`util.rs`, lines 29-31). -/
noncomputable def Spin.norm (s : Spin) : ℝ :=
  Real.sqrt (s.v0 * s.v0 + s.v1 * s.v1 + s.v2 * s.v2)

/-- Source `Spin::angle` (`util.rs`, lines 13-16): `acos(z / ‖state‖)`. -/
noncomputable def Spin.angle (s : Spin) : ℝ := Real.arccos (s.v2 / s.norm)

/-- Source `Spin::phase` (`util.rs`, lines 18-27): `atan2(y, x) + π/2`, wrapped into
`[0, 2π)` by adding `2π` when negative. -/
noncomputable def Spin.phase (s : Spin) : ℝ :=
  let tmp := atan2 s.v1 s.v0 + Real.pi / 2
  if tmp < 0 then tmp + 2 * Real.pi else tmp

/-- Source `Rotation` (`util.rs`, line 34): a 3×3 matrix, row-major entries. -/
structure Rotation where
  m00 : ℝ
  m01 : ℝ
  m02 : ℝ
  m10 : ℝ
  m11 : ℝ
  m12 : ℝ
  m20 : ℝ
  m21 : ℝ
  m22 : ℝ

/-- Source `Rotation::new` (`util.rs`, lines 37-57): the Rodrigues rotation matrix
for the axis `(cos phase, sin phase, 0)` in the transverse plane. -/
noncomputable def Rotation.new (angle phase : ℝ) : Rotation :=
  ⟨Real.cos angle * Real.sin phase ^ 2 + Real.cos phase ^ 2,
    (1 - Real.cos angle) * Real.sin phase * Real.cos phase,
    Real.sin angle * Real.sin phase,
    (1 - Real.cos angle) * Real.sin phase * Real.cos phase,
    Real.cos angle * Real.cos phase ^ 2 + Real.sin phase ^ 2,
    -(Real.sin angle) * Real.cos phase,
    -(Real.sin angle) * Real.sin phase,
    Real.sin angle * Real.cos phase,
    Real.cos angle⟩

/-- Source `MulAssign<Rotation> for Spin` (`util.rs`, lines 60-67): `spin ← R · spin`. -/
def Spin.applyRot (s : Spin) (r : Rotation) : Spin :=
  ⟨r.m00 * s.v0 + r.m01 * s.v1 + r.m02 * s.v2,
    r.m10 * s.v0 + r.m11 * s.v1 + r.m12 * s.v2,
    r.m20 * s.v0 + r.m21 * s.v1 + r.m22 * s.v2⟩

/-- Iterated (`k`-fold) sequential applications of the same rotation (the loop of
`random_multi_rot`, `util.rs` lines 96-98). -/
def Spin.applyRotN (s : Spin) (r : Rotation) : ℕ → Spin
  | 0 => s
  | k + 1 => (s.applyRotN r k).applyRot r

/-! ## Theorems

The claims are settled below, one main theorem per claim, with shared helper
lemmas in between. -/

/-- C10: `Trigger::new` is only defined for input arrays strictly longer than
`WND = 10`: for every array of length at most 10 the `assert!(n_samples > WND)`
aborts construction (modelled as `none`) instead of returning an empty
interval index. -/
theorem trigger_new_short_aborts {β : Type} [Zero β] [DecidableEq β]
    (samples : List β) (h : samples.length ≤ 10) : Trigger.new samples = none := by
  unfold Trigger.new
  rw [if_pos]
  exact h

theorem trigger_new_short_aborts_witness :
    Trigger.new (List.replicate 10 (1 : ℚ)) = none :=
  trigger_new_short_aborts (List.replicate 10 (1 : ℚ)) (by decide)

theorem cumSum_length (acc : ℤ) (l : List ℤ) : (cumSum acc l).length = l.length := by
  induction l generalizing acc with
  | nil => rfl
  | cons x rest ih => simp [cumSum, ih]

/-- C9: whenever `decompress_shape` returns a result (rather than aborting
fatally on a decoded-length mismatch), the result has exactly the declared
number of samples — never a truncated or padded sequence. -/
theorem decompress_shape_length (samples : List ℤ) (num_samples : ℕ) (out : List ℤ)
    (h : decompress_shape samples num_samples = some out) : out.length = num_samples := by
  rw [decompress_shape] at h
  simp only [Option.ite_none_right_eq_some, Option.some.injEq] at h
  obtain ⟨hlen, rfl⟩ := h
  rw [cumSum_length]
  exact hlen

theorem decompress_shape_length_witness : ([1, 3, 6] : List ℤ).length = 3 :=
  decompress_shape_length [1, 2, 3] 3 [1, 3, 6] (by decide)

theorem chainOk_iff_chain' (l : List (ℕ × ℕ)) :
    chainOk l = true ↔ List.Chain' (fun p q : ℕ × ℕ => p.2 < q.1) l := by
  match l with
  | [] => simp [chainOk]
  | [e] => simp [chainOk]
  | e1 :: e2 :: rest =>
    rw [List.chain'_cons, ← chainOk_iff_chain' (e2 :: rest)]
    simp [chainOk]

/-- C2: whenever `Trigger::new` accepts a raster array (returns an interval
list rather than aborting on one of its assertions), the number of detected
starts equals the number of detected ends, every interval's start index is
strictly below its end index, and consecutive intervals are strictly sorted
and non-overlapping (`intervals[i].end < intervals[i+1].start`). -/
theorem trigger_new_invariants {β : Type} [Zero β] [DecidableEq β]
    (samples : List β) (evts : List (ℕ × ℕ)) (h : Trigger.new samples = some evts) :
    (triggerStarts samples).length = (triggerEnds samples).length ∧
      (∀ e ∈ evts, e.1 < e.2) ∧
      List.Chain' (fun p q : ℕ × ℕ => p.2 < q.1) evts := by
  simp only [Trigger.new] at h
  split at h
  case isTrue => exact absurd h (by simp)
  case isFalse =>
    split at h
    case isTrue => exact absurd h (by simp)
    case isFalse hlen =>
      split at h
      case isTrue => exact absurd h (by simp)
      case isFalse hall =>
        split at h
        case isTrue => exact absurd h (by simp)
        case isFalse hchain =>
          obtain rfl : (triggerStarts samples).zip (triggerEnds samples) = evts :=
            Option.some_injective _ h
          refine ⟨by omega, ?_, ?_⟩
          · intro e he
            obtain ⟨a, b⟩ := e
            have h' : ∀ a b : ℕ,
                (a, b) ∈ (triggerStarts samples).zip (triggerEnds samples) → a < b := by
              simpa using hall
            exact h' a b he
          · refine (chainOk_iff_chain' _).mp ?_
            simpa using hchain

theorem trigger_new_invariants_witness :
    (triggerStarts ([0, 0, 0, 0, 0, 0, 0, 0, 0, 1, 1, 0] : List ℚ)).length =
        (triggerEnds ([0, 0, 0, 0, 0, 0, 0, 0, 0, 1, 1, 0] : List ℚ)).length ∧
      (∀ e ∈ [((9 : ℕ), (11 : ℕ))], e.1 < e.2) ∧
      List.Chain' (fun p q : ℕ × ℕ => p.2 < q.1) [(9, 11)] :=
  trigger_new_invariants ([0, 0, 0, 0, 0, 0, 0, 0, 0, 1, 1, 0] : List ℚ) [(9, 11)] (by decide)

/-- C5: for positive rise and fall times and non-negative flat time,
integrating a trapezoid gradient over its full support
`[0, rise + flat + fall]` yields `amplitude * (rise/2 + flat + fall/2)`. -/
theorem integrate_trap_full_support {α : Type} [LinearOrderedField α]
    (rise flat fall amp : α) (hr : 0 < rise) (hf : 0 ≤ flat) (hl : 0 < fall) :
    amp * integrate_trap 0 (rise + flat + fall) rise flat fall =
      amp * (rise / 2 + flat + fall / 2) := by
  have hT : (0 : α) ≤ rise + flat + fall := by linarith
  have h1 : clampv (rise + flat + fall) 0 (rise + flat + fall) = rise + flat + fall := by
    simp [clampv, hT]
  have h2 : clampv (0 : α) 0 (rise + flat + fall) = 0 := by
    simp [clampv, hT]
  rw [integrate_trap, h1, h2, trapAntideriv, trapAntideriv,
    if_neg (by linarith), if_neg (by linarith), if_pos hr.le]
  have : rise + flat + fall - (rise + flat + fall) = 0 := by ring
  rw [this]
  field_simp

section AdditivityLemmas

variable {α : Type} [LinearOrderedField α]

theorem sampleDur_eq_overlap (x y t d : α) (hxy : x ≤ y) (hd : 0 ≤ d)
    (hx : x ≤ t + d) (hy : t < y) :
    sampleDur x y t d = min (t + d) y - max t x := by
  rw [sampleDur]
  split_ifs with hu
  · rw [min_eq_left hu.2, max_eq_left hu.1]
    ring
  · have e1 : min t y = t := min_eq_left hy.le
    have e2 : max x (min (t + d) y) = min (t + d) y := max_eq_right (le_min hx hxy)
    rw [clampv, clampv, e1, e2, max_comm x t]

theorem sampleContrib_eq_overlap (x y dwell : α) (i : ℕ) (hxy : x ≤ y) (hd : 0 ≤ dwell) :
    sampleContrib x y dwell i =
      max 0 (min ((i : α) * dwell + dwell) y - max ((i : α) * dwell) x) := by
  rw [sampleContrib]
  split_ifs with h1 h2
  · rw [eq_comm, max_eq_left]
    have := min_le_left ((i : α) * dwell + dwell) y
    have := le_max_left ((i : α) * dwell) x
    linarith [le_max_right ((i : α) * dwell) x]
  · rw [eq_comm, max_eq_left]
    have := min_le_right ((i : α) * dwell + dwell) y
    have := le_max_left ((i : α) * dwell) x
    linarith
  · push_neg at h1 h2
    rw [sampleDur_eq_overlap x y _ _ hxy hd (by linarith) h2, eq_comm, max_eq_right]
    have h3 : max ((i : α) * dwell) x ≤ min ((i : α) * dwell + dwell) y :=
      max_le (le_min (by linarith) h2.le) (le_min (by linarith) hxy)
    linarith

theorem gradContrib_eq_overlap (x y step : α) (i : ℕ) (hxy : x ≤ y) (hd : 0 ≤ step) :
    gradContrib x y step i =
      max 0 (min ((i : α) * step + step) y - max ((i : α) * step) x) := by
  rw [gradContrib]
  split_ifs with h1 h2
  · rw [eq_comm, max_eq_left]
    have := min_le_left ((i : α) * step + step) y
    have := le_max_right ((i : α) * step) x
    linarith
  · rw [eq_comm, max_eq_left]
    have := min_le_right ((i : α) * step + step) y
    have := le_max_left ((i : α) * step) x
    linarith
  · push_neg at h1 h2
    rw [sampleDur_eq_overlap x y _ _ hxy hd h1 h2, eq_comm, max_eq_right]
    have h3 : max ((i : α) * step) x ≤ min ((i : α) * step + step) y :=
      max_le (le_min (by linarith) h2.le) (le_min h1 hxy)
    linarith

theorem overlap_add (a b c t u : α) (hab : a ≤ b) (hbc : b ≤ c) (htu : t ≤ u) :
    max 0 (min u c - max t a) = max 0 (min u b - max t a) + max 0 (min u c - max t b) := by
  rcases le_total u b with h | h
  · have h2 : min u c = u := min_eq_left (h.trans hbc)
    have h3 : max 0 (min u c - max t b) = 0 := by
      rw [max_eq_left]
      have := le_max_right t b
      linarith [h2 ▸ min_le_left u c]
    rw [h2] at h3
    rw [min_eq_left h, h2, h3, add_zero]
  · rcases le_total b t with h' | h'
    · have h1 : max t b = t := max_eq_left h'
      have h2 : max t a = t := max_eq_left (hab.trans h')
      have h3 : max 0 (min u b - max t a) = 0 := by
        rw [h2, max_eq_left]
        have := min_le_right u b
        linarith
      rw [h3, zero_add, h1, h2]
    · have h1 : max t b = b := max_eq_right h'
      have h2 : min u b = b := min_eq_right h
      have h4 : max t a ≤ b := max_le h' (hab.trans le_rfl)
      have h5 : b ≤ min u c := le_min h hbc
      rw [h1, h2]
      rw [max_eq_right (by linarith [le_max_left t a] : (0:α) ≤ min u c - max t a),
        max_eq_right (by linarith : (0:α) ≤ b - max t a),
        max_eq_right (by linarith : (0:α) ≤ min u c - b)]
      ring

theorem enumFrom_fst_le {γ : Type} (l : List γ) (k : ℕ) (p : ℕ × γ)
    (hp : p ∈ List.enumFrom k l) : k ≤ p.1 := by
  induction l generalizing k with
  | nil => simp [List.enumFrom] at hp
  | cons x rest ih =>
    simp only [List.enumFrom, List.mem_cons] at hp
    rcases hp with rfl | hp
    · exact le_rfl
    · exact (Nat.le_succ k).trans (ih (k + 1) hp)

theorem enumFrom_take_fst_lt {γ : Type} (l : List γ) (k j : ℕ) (p : ℕ × γ)
    (hp : p ∈ (List.enumFrom k l).take j) : p.1 < k + j := by
  induction l generalizing k j with
  | nil => simp [List.enumFrom] at hp
  | cons x rest ih =>
    match j with
    | 0 => simp at hp
    | j + 1 =>
      simp only [List.enumFrom, List.take_succ_cons, List.mem_cons] at hp
      rcases hp with rfl | hp
      · omega
      · have := ih (k + 1) j hp
        omega

theorem enumFrom_drop {γ : Type} (l : List γ) (k j : ℕ) :
    (List.enumFrom k l).drop j = List.enumFrom (k + j) (l.drop j) := by
  induction l generalizing k j with
  | nil => simp [List.enumFrom]
  | cons x rest ih =>
    match j with
    | 0 => simp
    | j + 1 =>
      simp only [List.enumFrom, List.drop_succ_cons]
      rw [ih (k + 1) j]
      congr 1
      omega

theorem list_sum_map_add {γ α : Type} [LinearOrderedField α] (l : List γ) (f g : γ → α) :
    (l.map (fun x => f x + g x)).sum = (l.map f).sum + (l.map g).sum := by
  induction l with
  | nil => simp
  | cons x rest ih => simp [ih]; ring

theorem freeLoop_eq_sum {α : Type} [LinearOrderedField α] (a c dwell : α) (hd : 0 ≤ dwell)
    (l : List α) (k : ℕ) :
    freeLoop a c dwell (List.enumFrom k l) =
      ((List.enumFrom k l).map (fun p => p.2 * sampleContrib a c dwell p.1)).sum := by
  induction l generalizing k with
  | nil => simp [List.enumFrom, freeLoop]
  | cons v rest ih =>
    simp only [List.enumFrom, freeLoop, List.map_cons, List.sum_cons]
    split_ifs with h1 h2
    · rw [ih, sampleContrib, if_pos h1]
      ring
    · rw [sampleContrib, if_neg h1, if_pos h2]
      have hzero : ((List.enumFrom (k + 1) rest).map
          (fun p => p.2 * sampleContrib a c dwell p.1)).sum = 0 := by
        apply List.sum_eq_zero
        intro x hx
        simp only [List.mem_map] at hx
        obtain ⟨p, hp, rfl⟩ := hx
        have hk : k + 1 ≤ p.1 := enumFrom_fst_le rest (k + 1) p hp
        have ht : (k : α) * dwell ≤ (p.1 : α) * dwell := by
          apply mul_le_mul_of_nonneg_right _ hd
          exact_mod_cast Nat.le_of_succ_le hk
        rw [sampleContrib]
        split_ifs with g1 g2
        · ring
        · ring
        · exact absurd (h2.trans ht) g2
      rw [hzero]
      ring
    · rw [ih, sampleContrib, if_neg h1, if_neg h2]

theorem gradLoop_eq_sum {α : Type} [LinearOrderedField α] (a c step : α) (hd : 0 ≤ step)
    (l : List α) (k : ℕ) :
    gradLoop a c step (List.enumFrom k l) =
      ((List.enumFrom k l).map (fun p => p.2 * gradContrib a c step p.1)).sum := by
  induction l generalizing k with
  | nil => simp [List.enumFrom, gradLoop]
  | cons v rest ih =>
    simp only [List.enumFrom, gradLoop, List.map_cons, List.sum_cons]
    split_ifs with h1 h2
    · rw [ih, gradContrib, if_pos h1]
      ring
    · rw [gradContrib, if_neg h1, if_pos h2]
      have hzero : ((List.enumFrom (k + 1) rest).map
          (fun p => p.2 * gradContrib a c step p.1)).sum = 0 := by
        apply List.sum_eq_zero
        intro x hx
        simp only [List.mem_map] at hx
        obtain ⟨p, hp, rfl⟩ := hx
        have hk : k + 1 ≤ p.1 := enumFrom_fst_le rest (k + 1) p hp
        have ht : (k : α) * step ≤ (p.1 : α) * step := by
          apply mul_le_mul_of_nonneg_right _ hd
          exact_mod_cast Nat.le_of_succ_le hk
        rw [gradContrib]
        split_ifs with g1 g2
        · ring
        · ring
        · exact absurd (h2.trans ht) g2
      rw [hzero]
      ring
    · rw [ih, gradContrib, if_neg h1, if_neg h2]

theorem sampleContrib_add {α : Type} [LinearOrderedField α] (a b c dwell : α) (i : ℕ)
    (hab : a ≤ b) (hbc : b ≤ c) (hd : 0 ≤ dwell) :
    sampleContrib a c dwell i = sampleContrib a b dwell i + sampleContrib b c dwell i := by
  rw [sampleContrib_eq_overlap a c dwell i (hab.trans hbc) hd,
    sampleContrib_eq_overlap a b dwell i hab hd,
    sampleContrib_eq_overlap b c dwell i hbc hd]
  exact overlap_add a b c ((i : α) * dwell) ((i : α) * dwell + dwell) hab hbc (by linarith)

theorem gradContrib_add {α : Type} [LinearOrderedField α] (a b c step : α) (i : ℕ)
    (hab : a ≤ b) (hbc : b ≤ c) (hd : 0 ≤ step) :
    gradContrib a c step i = gradContrib a b step i + gradContrib b c step i := by
  rw [gradContrib_eq_overlap a c step i (hab.trans hbc) hd,
    gradContrib_eq_overlap a b step i hab hd,
    gradContrib_eq_overlap b c step i hbc hd]
  exact overlap_add a b c ((i : α) * step) ((i : α) * step + step) hab hbc (by linarith)

theorem integrate_trap_additive {α : Type} [LinearOrderedField α]
    (a b c rise flat fall : α) :
    integrate_trap a c rise flat fall =
      integrate_trap a b rise flat fall + integrate_trap b c rise flat fall := by
  rw [integrate_trap, integrate_trap, integrate_trap]
  ring

theorem integrate_free_eq_sum {α : Type} [LinearOrderedField α] (x y dwell : α)
    (hd : 0 ≤ dwell) (shape : List α) :
    integrate_free x y shape dwell =
      ((List.enumFrom 0 shape).map (fun p => p.2 * sampleContrib x y dwell p.1)).sum := by
  rw [integrate_free, show shape.enum = List.enumFrom 0 shape from rfl,
    freeLoop_eq_sum x y dwell hd shape 0]

theorem integrate_free_additive {α : Type} [LinearOrderedField α]
    (a b c dwell : α) (shape : List α) (hab : a ≤ b) (hbc : b ≤ c) (hd : 0 ≤ dwell) :
    integrate_free a c shape dwell =
      integrate_free a b shape dwell + integrate_free b c shape dwell := by
  rw [integrate_free_eq_sum a c dwell hd shape, integrate_free_eq_sum a b dwell hd shape,
    integrate_free_eq_sum b c dwell hd shape]
  have hmap : (List.enumFrom 0 shape).map (fun p => p.2 * sampleContrib a c dwell p.1) =
      (List.enumFrom 0 shape).map
        (fun p => p.2 * sampleContrib a b dwell p.1 + p.2 * sampleContrib b c dwell p.1) := by
    apply List.map_congr_left
    intro p _
    rw [sampleContrib_add a b c dwell p.1 hab hbc hd]
    ring
  rw [hmap, list_sum_map_add (List.enumFrom 0 shape)
    (fun p => p.2 * sampleContrib a b dwell p.1) (fun p => p.2 * sampleContrib b c dwell p.1)]

theorem grad_integrate_eq_sum {α : Type} [LinearOrderedField α] [FloorRing α]
    (g : Grad α) (x y : α) (hd : 0 ≤ g.time_step) :
    Grad.integrate g x y =
      ((List.enumFrom (Int.toNat ⌊x / g.time_step⌋)
          (g.amplitude.drop (Int.toNat ⌊x / g.time_step⌋))).map
        (fun p => p.2 * gradContrib x y g.time_step p.1)).sum := by
  rw [Grad.integrate, show g.amplitude.enum = List.enumFrom 0 g.amplitude from rfl,
    enumFrom_drop g.amplitude 0 (Int.toNat ⌊x / g.time_step⌋), Nat.zero_add,
    gradLoop_eq_sum x y g.time_step hd]

theorem gradContrib_below_start {α : Type} [LinearOrderedField α] [FloorRing α]
    (b c ts : α) (i : ℕ) (hbc : b ≤ c) (hts : 0 < ts) (hi : i < Int.toNat ⌊b / ts⌋) :
    gradContrib b c ts i = 0 := by
  have h1 : ((i : ℤ) + 1) ≤ ⌊b / ts⌋ := by
    have h0 : (i : ℤ) < ⌊b / ts⌋ := Int.lt_toNat.mp hi
    omega
  have h2 : ((i : α) + 1) ≤ b / ts := by
    have := Int.le_floor.mp h1
    push_cast at this
    linarith
  have h3 : ((i : α) + 1) * ts ≤ b := by
    calc ((i : α) + 1) * ts ≤ b / ts * ts := mul_le_mul_of_nonneg_right h2 hts.le
    _ = b := div_mul_cancel₀ b hts.ne'
  rw [gradContrib_eq_overlap b c ts i hbc hts.le, max_eq_left]
  have hmin := min_le_left ((i : α) * ts + ts) c
  have hmax := le_max_right ((i : α) * ts) b
  linarith

theorem grad_integrate_additive {α : Type} [LinearOrderedField α] [FloorRing α]
    (g : Grad α) (a b c : α) (hab : a ≤ b) (hbc : b ≤ c) (hts : 0 < g.time_step) :
    Grad.integrate g a c = Grad.integrate g a b + Grad.integrate g b c := by
  set ts := g.time_step with hts_def
  set l := g.amplitude with hl_def
  set ia := Int.toNat ⌊a / ts⌋ with hia
  set ib := Int.toNat ⌊b / ts⌋ with hib
  have hdiv : a / ts ≤ b / ts := by gcongr
  have hiab : ia ≤ ib := Int.toNat_le_toNat (Int.floor_le_floor hdiv)
  have key := grad_integrate_eq_sum g a c hts.le
  have keyab := grad_integrate_eq_sum g a b hts.le
  have keybc := grad_integrate_eq_sum g b c hts.le
  rw [key, keyab, keybc]
  have hmap : (List.enumFrom ia (l.drop ia)).map (fun p => p.2 * gradContrib a c ts p.1) =
      (List.enumFrom ia (l.drop ia)).map
        (fun p => p.2 * gradContrib a b ts p.1 + p.2 * gradContrib b c ts p.1) := by
    apply List.map_congr_left
    intro p _
    rw [gradContrib_add a b c ts p.1 hab hbc hts.le]
    ring
  rw [hmap, list_sum_map_add (List.enumFrom ia (l.drop ia))
    (fun p => p.2 * gradContrib a b ts p.1) (fun p => p.2 * gradContrib b c ts p.1)]
  congr 1
  have hdd : (l.drop ia).drop (ib - ia) = l.drop ib := by
    rw [List.drop_drop]
    congr 1
    omega
  have hsplit : List.enumFrom ia (l.drop ia) =
      (List.enumFrom ia (l.drop ia)).take (ib - ia) ++ List.enumFrom ib (l.drop ib) := by
    conv_lhs => rw [← List.take_append_drop (ib - ia) (List.enumFrom ia (l.drop ia))]
    rw [enumFrom_drop (l.drop ia) ia (ib - ia), hdd, show ia + (ib - ia) = ib by omega]
  rw [hsplit, List.map_append, List.sum_append]
  have hzero : (((List.enumFrom ia (l.drop ia)).take (ib - ia)).map
      (fun p => p.2 * gradContrib b c ts p.1)).sum = 0 := by
    apply List.sum_eq_zero
    intro x hx
    simp only [List.mem_map] at hx
    obtain ⟨p, hp, rfl⟩ := hx
    have hlt : p.1 < ia + (ib - ia) := enumFrom_take_fst_lt (l.drop ia) ia (ib - ia) p hp
    have : p.1 < ib := by omega
    rw [gradContrib_below_start b c ts p.1 hbc hts this]
    ring
  rw [hzero, zero_add]

end AdditivityLemmas

section TriggerCharacterization

variable {β : Type} [Zero β] [DecidableEq β]

theorem getD_eq_getElem' (l : List β) (i : ℕ) (h : i < l.length) : l.getD i 0 = l[i] := by
  rw [List.getD_eq_getElem?_getD, List.getElem?_eq_getElem h, Option.getD_some]

theorem firstNonzeroIdx_eq_some_iff (l : List β) (i : ℕ) :
    firstNonzeroIdx l = some i ↔
      i < l.length ∧ l.getD i 0 ≠ 0 ∧ ∀ j < i, l.getD j 0 = 0 := by
  induction l generalizing i with
  | nil => simp [firstNonzeroIdx]
  | cons x rest ih =>
    rw [firstNonzeroIdx]
    by_cases hx : x ≠ 0
    · rw [if_pos hx]
      constructor
      · intro h
        obtain rfl : (0 : ℕ) = i := Option.some_injective _ h
        exact ⟨by simp, by simpa using hx, by omega⟩
      · rintro ⟨hlen, hne, hall⟩
        match i with
        | 0 => rfl
        | i + 1 =>
          exfalso
          exact hx (by simpa using hall 0 (by omega))
    · rw [if_neg hx]
      push_neg at hx
      rw [Option.map_eq_some']
      constructor
      · rintro ⟨a, ha, rfl⟩
        obtain ⟨h1, h2, h3⟩ := (ih a).mp ha
        refine ⟨by simpa using Nat.succ_lt_succ h1, by simpa using h2, ?_⟩
        intro j hj
        match j with
        | 0 => simpa using hx
        | j + 1 => simpa using h3 j (by omega)
      · rintro ⟨h1, h2, h3⟩
        match i with
        | 0 => exact absurd (by simpa using hx) (by simpa using h2)
        | i + 1 =>
          refine ⟨i, (ih i).mpr ⟨by simpa using h1, by simpa using h2, ?_⟩, rfl⟩
          intro j hj
          simpa using h3 (j + 1) (by omega)

theorem all_zero_take_drop_iff (l : List β) (p m : ℕ) (hpm : p + m ≤ l.length) :
    (((l.drop p).take m).all (fun x => decide (x = 0)) = true) ↔
      ∀ j < m, l.getD (p + j) 0 = 0 := by
  rw [List.all_eq_true]
  constructor
  · intro h j hj
    have hjlen : p + j < l.length := by omega
    have hjtk : j < ((l.drop p).take m).length := by
      simp only [List.length_take, List.length_drop]
      omega
    have hmem : l[p + j] ∈ (l.drop p).take m := by
      rw [List.mem_iff_getElem]
      exact ⟨j, hjtk, by rw [List.getElem_take, List.getElem_drop]⟩
    have := h _ hmem
    rw [getD_eq_getElem' l (p + j) hjlen]
    simpa using this
  · intro h x hx
    rw [List.mem_iff_getElem] at hx
    obtain ⟨j, hjlen, rfl⟩ := hx
    have hj : j < m := by
      simp only [List.length_take, List.length_drop] at hjlen
      omega
    have hjl : p + j < l.length := by omega
    have e : ((l.drop p).take m)[j] = l[p + j] := by
      rw [List.getElem_take, List.getElem_drop]
    rw [e]
    have := h j hj
    rw [getD_eq_getElem' l (p + j) hjl] at this
    simpa using this

theorem mem_loopStarts_iff (samples : List β) (i : ℕ) :
    i ∈ loopStarts samples ↔ specWindowStart samples i := by
  rw [loopStarts, specWindowStart]
  simp only [List.mem_filterMap, List.mem_range, Option.ite_none_right_eq_some,
    Option.some.injEq]
  constructor
  · rintro ⟨p, hp, hcond, rfl⟩
    have hpw : p + WND ≤ samples.length := by
      rw [WND] at hp ⊢
      omega
    rw [windowStartCond, Bool.and_eq_true, decide_eq_true_eq] at hcond
    refine ⟨p, hpw, ?_, hcond.2, rfl⟩
    exact (all_zero_take_drop_iff samples p (WND - 1) (by omega)).mp hcond.1
  · rintro ⟨p, hpw, hzero, hne, rfl⟩
    refine ⟨p, by rw [WND] at hpw ⊢; omega, ?_, rfl⟩
    rw [windowStartCond, Bool.and_eq_true, decide_eq_true_eq]
    exact ⟨(all_zero_take_drop_iff samples p (WND - 1) (by omega)).mpr hzero, hne⟩

theorem mem_loopEnds_iff (samples : List β) (i : ℕ) :
    i ∈ loopEnds samples ↔ specWindowEnd samples i := by
  rw [loopEnds, specWindowEnd]
  simp only [List.mem_filterMap, List.mem_range, Option.ite_none_right_eq_some,
    Option.some.injEq]
  constructor
  · rintro ⟨p, hp, hcond, rfl⟩
    have hpw : p + WND ≤ samples.length := by
      rw [WND] at hp ⊢
      omega
    rw [windowEndCond, Bool.and_eq_true, decide_eq_true_eq] at hcond
    refine ⟨hpw, hcond.1, ?_⟩
    intro j hj1 hjw
    have := (all_zero_take_drop_iff samples (p + 1) (WND - 1) (by omega)).mp hcond.2
      (j - 1) (by omega)
    have e : p + 1 + (j - 1) = p + j := by omega
    rwa [e] at this
  · rintro ⟨hpw, hne, hzero⟩
    refine ⟨i, by rw [WND] at hpw ⊢; omega, ?_, rfl⟩
    rw [windowEndCond, Bool.and_eq_true, decide_eq_true_eq]
    refine ⟨hne, ?_⟩
    apply (all_zero_take_drop_iff samples (i + 1) (WND - 1)
      (by have h := hpw; rw [WND] at h; rw [WND]; omega)).mpr
    intro j hj
    have := hzero (j + 1) (by omega) (by rw [WND] at hj ⊢; omega)
    have e : i + (j + 1) = i + 1 + j := by omega
    rwa [e] at this

theorem leadStart_eq_some_iff (samples : List β) (i : ℕ) :
    leadStart samples = some i ↔ specLeadStart samples i := by
  rw [leadStart, firstNonzeroIdx_eq_some_iff, specLeadStart]
  have hlen : (samples.take (WND - 1)).length = min (WND - 1) samples.length := by
    simp [List.length_take]
  have hbridge : ∀ j, j < min (WND - 1) samples.length →
      (samples.take (WND - 1)).getD j 0 = samples.getD j 0 := by
    intro j hj
    have h1 : j < (samples.take (WND - 1)).length := by omega
    have h2 : j < samples.length := by omega
    rw [getD_eq_getElem' _ j h1, getD_eq_getElem' _ j h2, List.getElem_take]
  constructor
  · rintro ⟨h1, h2, h3⟩
    rw [hlen] at h1
    rw [hbridge i h1] at h2
    refine ⟨by omega, by omega, h2, ?_⟩
    intro j hj
    have := h3 j hj
    rwa [hbridge j (by omega)] at this
  · rintro ⟨h1, h2, h3, h4⟩
    have h1' : i < min (WND - 1) samples.length := by omega
    refine ⟨by omega, ?_, ?_⟩
    · rwa [hbridge i h1']
    · intro j hj
      rw [hbridge j (by omega)]
      exact h4 j hj

theorem getD_reverse (l : List β) (q : ℕ) (h : q < l.length) :
    l.reverse.getD q 0 = l.getD (l.length - 1 - q) 0 := by
  have h1 : q < l.reverse.length := by simpa using h
  have h2 : l.length - 1 - q < l.length := by omega
  rw [getD_eq_getElem' _ q h1, getD_eq_getElem' _ _ h2, List.getElem_reverse]

theorem trailEnd_eq_some_iff (samples : List β) (i : ℕ) :
    trailEnd samples = some i ↔ specTrailEnd samples i := by
  rw [trailEnd, Option.map_eq_some', specTrailEnd]
  have hlen : (samples.reverse.take (WND - 1)).length =
      min (WND - 1) samples.length := by
    simp [List.length_take]
  have hbridge : ∀ q, q < min (WND - 1) samples.length →
      (samples.reverse.take (WND - 1)).getD q 0 =
        samples.getD (samples.length - 1 - q) 0 := by
    intro q hq
    have h1 : q < (samples.reverse.take (WND - 1)).length := by omega
    have h2 : q < samples.reverse.length := by simp; omega
    rw [getD_eq_getElem' _ q h1, List.getElem_take, ← getD_eq_getElem' _ q h2]
    exact getD_reverse samples q (by omega)
  constructor
  · rintro ⟨r, hr, rfl⟩
    rw [firstNonzeroIdx_eq_some_iff] at hr
    obtain ⟨h1, h2, h3⟩ := hr
    rw [hlen] at h1
    rw [hbridge r h1] at h2
    refine ⟨r, by omega, by omega, h2, ?_, rfl⟩
    intro q hq
    have := h3 q hq
    rwa [hbridge q (by omega)] at this
  · rintro ⟨r, h1, h2, h3, h4, rfl⟩
    refine ⟨r, ?_, rfl⟩
    rw [firstNonzeroIdx_eq_some_iff]
    have h1' : r < min (WND - 1) samples.length := by omega
    refine ⟨by omega, ?_, ?_⟩
    · rwa [hbridge r h1']
    · intro q hq
      rw [hbridge q (by omega)]
      exact h4 q hq

/-- C3 (counterexample): for the 12-sample array with its single non-zero
sample at index 10 followed by one trailing zero, `Trigger::new` emits the
interval `(10, 11)`: the synthetic end at the trailing edge is 11, which is a
zero sample — not the index of the last non-zero sample of the run (10). -/
theorem trigger_trailing_end_not_last_nonzero :
    Trigger.new ([0, 0, 0, 0, 0, 0, 0, 0, 0, 0, 1, 0] : List ℚ) = some [(10, 11)] ∧
      ([0, 0, 0, 0, 0, 0, 0, 0, 0, 0, 1, 0] : List ℚ).getD 11 0 = 0 ∧
      ([0, 0, 0, 0, 0, 0, 0, 0, 0, 0, 1, 0] : List ℚ).getD 10 0 ≠ 0 := by
  decide

/-- C3 (amended): each recorded start is either a window-scan start (the first
non-zero sample immediately following `W - 1` consecutive zeros) or the
synthetic leading-edge start, which is indeed the index of the first non-zero
sample of a run starting within the first `W - 1` samples.  Each recorded end
is either a window-scan end (the last non-zero sample immediately preceding
`W - 1` consecutive zeros) or the synthetic trailing-edge end, which — with
`r < W - 1` trailing zeros and the last non-zero sample at index `n - 1 - r` —
is `min (n - r) (n - 1)`: one past the last non-zero sample (capped at
`n - 1`), equal to the last non-zero index only when the final sample itself
is non-zero. -/
theorem trigger_detection_characterization {β : Type} [Zero β] [DecidableEq β]
    (samples : List β) (i : ℕ) :
    (i ∈ triggerStarts samples ↔ specLeadStart samples i ∨ specWindowStart samples i) ∧
      (i ∈ triggerEnds samples ↔ specWindowEnd samples i ∨ specTrailEnd samples i) := by
  constructor
  · rw [triggerStarts, List.mem_append, ← mem_loopStarts_iff, ← leadStart_eq_some_iff]
    simp [Option.mem_toList, Option.mem_def]
  · rw [triggerEnds, List.mem_append, ← mem_loopEnds_iff, ← trailEnd_eq_some_iff]
    simp [Option.mem_toList, Option.mem_def]

end TriggerCharacterization

theorem applyRotN_relaxed (θ φ : ℝ) (k : ℕ) :
    Spin.relaxed.applyRotN (Rotation.new θ φ) k =
      Spin.mk (Real.sin (k * θ) * Real.sin φ) (-(Real.sin (k * θ)) * Real.cos φ)
        (Real.cos (k * θ)) := by
  induction k with
  | zero => simp [Spin.applyRotN, Spin.relaxed]
  | succ k ih =>
    rw [Spin.applyRotN, ih, Spin.applyRot, Rotation.new]
    have hs := Real.sin_sq_add_cos_sq φ
    have hcast : ((k + 1 : ℕ) : ℝ) * θ = (k : ℝ) * θ + θ := by push_cast; ring
    simp only [Spin.mk.injEq, hcast, Real.sin_add, Real.cos_add]
    refine ⟨?_, ?_, ?_⟩
    · linear_combination (Real.sin φ * Real.sin ((k : ℝ) * θ) * Real.cos θ) * hs
    · linear_combination (-(Real.sin ((k : ℝ) * θ)) * Real.cos φ * Real.cos θ) * hs
    · linear_combination (-(Real.sin θ) * Real.sin ((k : ℝ) * θ)) * hs

theorem spin_norm_one (c φ : ℝ) :
    (Spin.mk (Real.sin c * Real.sin φ) (-(Real.sin c) * Real.cos φ) (Real.cos c)).norm = 1 := by
  rw [Spin.norm]
  have h : Real.sin c * Real.sin φ * (Real.sin c * Real.sin φ) +
      -(Real.sin c) * Real.cos φ * (-(Real.sin c) * Real.cos φ) +
      Real.cos c * Real.cos c = 1 := by
    have hφ := Real.sin_sq_add_cos_sq φ
    have hc := Real.sin_sq_add_cos_sq c
    linear_combination (Real.sin c ^ 2) * hφ + hc
  rw [h, Real.sqrt_one]

theorem spin_angle_eq (c φ : ℝ) (h0 : 0 ≤ c) (hπ : c ≤ Real.pi) :
    (Spin.mk (Real.sin c * Real.sin φ) (-(Real.sin c) * Real.cos φ) (Real.cos c)).angle = c := by
  rw [Spin.angle, spin_norm_one, div_one]
  exact Real.arccos_cos h0 hπ

theorem atan2_spin (c φ ψ : ℝ) (hc : 0 < Real.sin c)
    (hcos : Real.cos ψ = Real.sin φ) (hsin : Real.sin ψ = -Real.cos φ) :
    atan2 (-(Real.sin c) * Real.cos φ) (Real.sin c * Real.sin φ) =
      Complex.arg (Complex.cos (ψ : ℂ) + Complex.sin (ψ : ℂ) * Complex.I) := by
  rw [atan2]
  have hmul : ((Real.sin c * Real.sin φ : ℝ) : ℂ) +
      ((-(Real.sin c) * Real.cos φ : ℝ) : ℂ) * Complex.I =
      ((Real.sin c : ℝ) : ℂ) * (Complex.cos (ψ : ℂ) + Complex.sin (ψ : ℂ) * Complex.I) := by
    rw [← Complex.ofReal_cos, ← Complex.ofReal_sin, hcos, hsin]
    push_cast
    ring
  rw [hmul, Complex.arg_real_mul _ hc]

theorem spin_phase_eq (c φ : ℝ) (hc : 0 < Real.sin c) (h0 : 0 ≤ φ) (h2 : φ < 2 * Real.pi) :
    (Spin.mk (Real.sin c * Real.sin φ) (-(Real.sin c) * Real.cos φ) (Real.cos c)).phase = φ := by
  have hπ := Real.pi_pos
  rw [Spin.phase]
  rcases le_or_lt φ (3 * Real.pi / 2) with hcase | hcase
  · have hψ : Real.cos (φ - Real.pi / 2) = Real.sin φ := Real.cos_sub_pi_div_two φ
    have hψ2 : Real.sin (φ - Real.pi / 2) = -Real.cos φ := Real.sin_sub_pi_div_two φ
    rw [atan2_spin c φ (φ - Real.pi / 2) hc hψ hψ2,
      Complex.arg_cos_add_sin_mul_I ⟨by linarith, by linarith⟩]
    have e : φ - Real.pi / 2 + Real.pi / 2 = φ := by ring
    rw [e, if_neg (not_lt.mpr h0)]
  · have he : φ - 5 * Real.pi / 2 = φ - Real.pi / 2 - 2 * Real.pi := by ring
    have hψ : Real.cos (φ - 5 * Real.pi / 2) = Real.sin φ := by
      rw [he, Real.cos_sub_two_pi, Real.cos_sub_pi_div_two]
    have hψ2 : Real.sin (φ - 5 * Real.pi / 2) = -Real.cos φ := by
      rw [he, Real.sin_sub_two_pi, Real.sin_sub_pi_div_two]
    rw [atan2_spin c φ (φ - 5 * Real.pi / 2) hc hψ hψ2,
      Complex.arg_cos_add_sin_mul_I ⟨by linarith, by linarith⟩]
    rw [if_pos (by linarith : φ - 5 * Real.pi / 2 + Real.pi / 2 < 0)]
    ring

/-- C1 (counterexample): at `θ = 0` (allowed by the claim's range `[0, π)`) the
spin state stays `(0, 0, 1)`, `atan2(0, 0) = 0`, and the extracted phase is
`π/2` regardless of the requested phase `φ`; with `φ = 0` the error is `π/2`,
far above the `1e-6` tolerance. -/
theorem rotation_zero_angle_phase :
    (Spin.relaxed.applyRotN (Rotation.new 0 0) 1).phase = Real.pi / 2 ∧
      ¬ (|(Spin.relaxed.applyRotN (Rotation.new 0 0) 1).phase - 0| ≤ 1e-6) := by
  have h : Spin.relaxed.applyRotN (Rotation.new 0 0) 1 = Spin.mk 0 0 1 := by
    simp [Spin.applyRotN, Spin.applyRot, Rotation.new, Spin.relaxed]
  have hphase : (Spin.mk 0 0 1).phase = Real.pi / 2 := by
    rw [Spin.phase, atan2]
    norm_num [Complex.arg_zero]
    intro hneg
    linarith [Real.pi_pos]
  rw [h, hphase]
  refine ⟨rfl, ?_⟩
  rw [sub_zero, abs_of_nonneg (by positivity)]
  intro hle
  have h3 := Real.pi_gt_three
  norm_num at hle
  linarith

/-- C1 (amended): for every `θ ∈ (0, π)` (the zero angle must be excluded: see
the counterexample) and `φ ∈ [0, 2π)`, applying `Rotation::new(θ, φ)` once to
`Spin::relaxed()` extracts exactly `(θ, φ)`, and splitting the rotation into
`K` equal sub-rotations at the same phase (any `K` from 1 to 100) and applying
them sequentially extracts exactly the same `(θ, φ)` — over exact real
arithmetic, hence within any positive tolerance such as `1e-6`. -/
theorem rotation_extraction (θ φ : ℝ) (K : ℕ) (hθ0 : 0 < θ) (hθπ : θ < Real.pi)
    (hφ0 : 0 ≤ φ) (hφ2 : φ < 2 * Real.pi) (hK1 : 1 ≤ K) (hK100 : K ≤ 100) :
    ((Spin.relaxed.applyRotN (Rotation.new θ φ) 1).angle = θ ∧
      (Spin.relaxed.applyRotN (Rotation.new θ φ) 1).phase = φ) ∧
      (Spin.relaxed.applyRotN (Rotation.new (θ / K) φ) K).angle = θ ∧
      (Spin.relaxed.applyRotN (Rotation.new (θ / K) φ) K).phase = φ := by
  have hsin : 0 < Real.sin θ := Real.sin_pos_of_pos_of_lt_pi hθ0 hθπ
  have hKpos : 0 < (K : ℝ) := by exact_mod_cast hK1
  have hKθ : (K : ℝ) * (θ / K) = θ := by field_simp
  have h1 : ((1 : ℕ) : ℝ) * θ = θ := by norm_num
  have e1 := applyRotN_relaxed θ φ 1
  rw [h1] at e1
  have eK := applyRotN_relaxed (θ / K) φ K
  rw [hKθ] at eK
  refine ⟨⟨?_, ?_⟩, ?_, ?_⟩
  · rw [e1]; exact spin_angle_eq θ φ hθ0.le hθπ.le
  · rw [e1]; exact spin_phase_eq θ φ hsin hφ0 hφ2
  · rw [eK]; exact spin_angle_eq θ φ hθ0.le hθπ.le
  · rw [eK]; exact spin_phase_eq θ φ hsin hφ0 hφ2

theorem rotation_extraction_witness :
    ((Spin.relaxed.applyRotN (Rotation.new (Real.pi / 2) 0) 1).angle = Real.pi / 2 ∧
      (Spin.relaxed.applyRotN (Rotation.new (Real.pi / 2) 0) 1).phase = 0) ∧
      (Spin.relaxed.applyRotN (Rotation.new (Real.pi / 2 / 2) 0) 2).angle = Real.pi / 2 ∧
      (Spin.relaxed.applyRotN (Rotation.new (Real.pi / 2 / 2) 0) 2).phase = 0 := by
  have h := rotation_extraction (Real.pi / 2) 0 2 (by positivity)
    (by linarith [Real.pi_pos]) le_rfl (by positivity) (by norm_num) (by norm_num)
  simpa using h

/-- C4 (failing input): on the dsv backend, `Adc::events` is not end-exclusive.
With an ADC channel whose trigger index holds the single interval `(0, 11)`
(from 12 raster samples, the first 11 non-zero), `time_step = 1`,
`resolution = None`, the query `events(t_start = 0, t_end = 5, max_count = 10)`
returns `[0, 1, 2, 3, 4, 5]`: the last returned time equals `t_end`, violating
the required `[t_start, t_end)` range (the strictly-increasing and
`max_count` parts hold here, but with `resolution` set and a raster-unaligned
window the same routine can also return duplicated times). -/
theorem adc_events_returns_t_end :
    Trigger.new ([1, 1, 1, 1, 1, 1, 1, 1, 1, 1, 1, 0] : List ℚ) = some [(0, 11)] ∧
      adcEvents [(0, 11)] (1 : ℚ) none 0 5 10 = [0, 1, 2, 3, 4, 5] ∧
      ¬ ((5 : ℚ) < 5) := by
  refine ⟨by decide, ?_, by norm_num⟩
  norm_num [adcEvents, adcEventsStep, triggerEventsRange, rangeStepBy, List.countP,
    List.countP.go, List.takeWhile, List.range, List.range.loop, List.take_succ_cons,
    List.flatMap, Int.toNat]

theorem rustRound_toNat_ge {α : Type} [LinearOrderedField α] [FloorRing α]
    (x : α) (n : ℕ) (h : (n : α) < x) : n ≤ (rustRound x).toNat := by
  have h0 : (0 : α) ≤ (n : α) := Nat.cast_nonneg n
  rw [rustRound, if_neg (not_lt.mpr (by linarith))]
  have hfl : (n : ℤ) ≤ ⌊x + 1/2⌋ := Int.le_floor.mpr (by push_cast; linarith)
  omega

theorem grad_sample_neg {α : Type} [LinearOrderedField α] [FloorRing α]
    (g : Grad α) (t : α) (h : t < 0) : g.sample t = 0 := by
  rw [Grad.sample, if_pos h]

theorem grad_sample_beyond {α : Type} [LinearOrderedField α] [FloorRing α]
    (g : Grad α) (t : α) (hts : 0 < g.time_step) (h : g.duration < t) : g.sample t = 0 := by
  have hlen : (0 : α) ≤ g.time_step * g.amplitude.length :=
    mul_nonneg hts.le (Nat.cast_nonneg _)
  have ht0 : ¬ t < 0 := not_lt.mpr (le_of_lt (lt_of_le_of_lt hlen h))
  rw [Grad.sample, if_neg ht0]
  apply List.getD_eq_default
  apply rustRound_toNat_ge
  rw [lt_div_iff hts]
  calc (g.amplitude.length : α) * g.time_step = g.time_step * g.amplitude.length := by ring
  _ < t := h

/-- C7 (counterexample): a negative sample time is outside the declared domain
`[0, duration]`, but the dsv sampler does not return the neutral sample there:
the saturating `as usize` cast clamps the raster index to 0, so the RF channel
reports the first sample's amplitude (here 1, not 0) and the ADC channel
reports the first sample's active flag (here `true`, not inactive). -/
theorem dsv_sample_negative_not_neutral :
    (dsvSampleOne
        (DsvSeq.mk [1] [0] 1 0 (Grad.mk [1] 1) (Grad.mk [1] 1) (Grad.mk [1] 1) [true] [0] 1 0)
        (-(1/4) : ℚ)).pulseAmplitude = 1 ∧
      (dsvSampleOne
        (DsvSeq.mk [1] [0] 1 0 (Grad.mk [1] 1) (Grad.mk [1] 1) (Grad.mk [1] 1) [true] [0] 1 0)
        (-(1/4) : ℚ)).adcActive = true ∧
      (-(1/4) : ℚ) < 0 ∧ (1 : ℚ) ≠ 0 := by
  refine ⟨?_, ?_, by norm_num, by norm_num⟩ <;>
    norm_num [dsvSampleOne, rustRound]

/-- C7 (amended): on the dsv backend, sampling past the end of every channel
(`t > duration`) yields the neutral sample: zero RF amplitude and phase, zero
gradient on all three channels, inactive ADC with zero phase (the per-channel
frequencies are reported unconditionally); no error or panic is involved.  For
`t < 0` only the gradient channels are guarded (they return 0); the RF and ADC
channels clamp the index to 0 and return the first sample, which is neutral
only if the arrays start with zeros. -/
theorem dsv_sample_out_of_range {α : Type} [LinearOrderedField α] [FloorRing α]
    (s : DsvSeq α) (t : α)
    (hrf : 0 < s.rfStep) (hadc : 0 < s.adcStep)
    (hgx : 0 < s.gx.time_step) (hgy : 0 < s.gy.time_step) (hgz : 0 < s.gz.time_step)
    (hlenrf : s.rfPhase.length = s.rfAmp.length)
    (hlenadc : s.adcPhase.length = s.adcActive.length) :
    (s.rfDuration < t → s.adcDuration < t →
      s.gx.duration < t → s.gy.duration < t → s.gz.duration < t →
      (dsvSampleOne s t).pulseAmplitude = 0 ∧ (dsvSampleOne s t).pulsePhase = 0 ∧
        (dsvSampleOne s t).gradX = 0 ∧ (dsvSampleOne s t).gradY = 0 ∧
        (dsvSampleOne s t).gradZ = 0 ∧ (dsvSampleOne s t).adcActive = false ∧
        (dsvSampleOne s t).adcPhase = 0) ∧
      (t < 0 → (dsvSampleOne s t).gradX = 0 ∧ (dsvSampleOne s t).gradY = 0 ∧
        (dsvSampleOne s t).gradZ = 0) := by
  constructor
  · intro h1 h2 h3 h4 h5
    have hrfIdx : s.rfAmp.length ≤ (rustRound (t / s.rfStep)).toNat := by
      apply rustRound_toNat_ge
      rw [lt_div_iff hrf]
      calc (s.rfAmp.length : α) * s.rfStep = s.rfStep * s.rfAmp.length := by ring
      _ < t := h1
    have hadcIdx : s.adcActive.length ≤ (rustRound (t / s.adcStep)).toNat := by
      apply rustRound_toNat_ge
      rw [lt_div_iff hadc]
      calc (s.adcActive.length : α) * s.adcStep = s.adcStep * s.adcActive.length := by ring
      _ < t := h2
    refine ⟨?_, ?_, ?_, ?_, ?_, ?_, ?_⟩
    · exact List.getD_eq_default _ _ hrfIdx
    · exact List.getD_eq_default _ _ (hlenrf ▸ hrfIdx)
    · exact grad_sample_beyond s.gx t hgx h3
    · exact grad_sample_beyond s.gy t hgy h4
    · exact grad_sample_beyond s.gz t hgz h5
    · exact List.getD_eq_default _ _ hadcIdx
    · exact List.getD_eq_default _ _ (hlenadc ▸ hadcIdx)
  · intro hneg
    exact ⟨grad_sample_neg s.gx t hneg, grad_sample_neg s.gy t hneg,
      grad_sample_neg s.gz t hneg⟩

theorem dsv_sample_out_of_range_witness :
    (dsvSampleOne (DsvSeq.mk [1] [1] 1 0 (Grad.mk [1] 1) (Grad.mk [1] 1) (Grad.mk [1] 1)
        [true] [1] 1 0) (2 : ℚ)).pulseAmplitude = 0 ∧
      (dsvSampleOne (DsvSeq.mk [1] [1] 1 0 (Grad.mk [1] 1) (Grad.mk [1] 1) (Grad.mk [1] 1)
        [true] [1] 1 0) (2 : ℚ)).gradX = 0 ∧
      (dsvSampleOne (DsvSeq.mk [1] [1] 1 0 (Grad.mk [1] 1) (Grad.mk [1] 1) (Grad.mk [1] 1)
        [true] [1] 1 0) (2 : ℚ)).adcActive = false := by
  have h := dsv_sample_out_of_range
    (DsvSeq.mk [1] [1] 1 0 (Grad.mk [1] 1) (Grad.mk [1] 1) (Grad.mk [1] 1) [true] [1] 1 0)
    (2 : ℚ) (by norm_num) (by norm_num) (by norm_num) (by norm_num) (by norm_num)
    (by norm_num) (by norm_num)
  have h2 := h.1 (by norm_num [DsvSeq.rfDuration]) (by norm_num [DsvSeq.adcDuration])
    (by norm_num [Grad.duration]) (by norm_num [Grad.duration]) (by norm_num [Grad.duration])
  exact ⟨h2.1, h2.2.2.1, h2.2.2.2.2.2.1⟩

/-- C8 (counterexample): calling the block-backend integrate with
`t_end = 0 ≤ t_start = 1` is handled by the implementation as a defined,
recoverable case: it returns the sign-flipped forward integral (here
`-3/1000` for the x gradient moment of a full trapezoid), not an aborted
computation — contradicting the claim that `t_end ≤ t_start` is an unhandled
precondition violation. -/
theorem pulseq_integrate_backwards_defined :
    pulseqIntegrate
        [((0 : ℚ), PBlock.mk (some (PGradient.trap 10 (1/10000) (2/10000) (1/10000) 0)) none none)]
        1 1 0 = (-(3/1000), 0, 0) := by
  norm_num [pulseqIntegrate, pulseqGradLoop, blockSearchIdx, integrate_grad, integrate_trap,
    trapAntideriv, clampv, List.countP, List.countP.go]

/-- C8 (amended): `PulseqSequence::integrate` gives `t_end < t_start` a defined
semantics rather than treating it as a precondition violation: it swaps the
bounds and negates the resulting moments ("integrate backwards and flip
sign"); only the legacy `frontend.rs` trait documents `t_start >= t_end` as a
panicking precondition. -/
theorem pulseq_integrate_swap_negates {α : Type} [LinearOrderedField α]
    (blocks : List (α × PBlock α)) (grad_raster tStart tEnd : α) (h : tEnd < tStart) :
    pulseqIntegrate blocks grad_raster tStart tEnd =
      (-(pulseqIntegrate blocks grad_raster tEnd tStart).1,
        -(pulseqIntegrate blocks grad_raster tEnd tStart).2.1,
        -(pulseqIntegrate blocks grad_raster tEnd tStart).2.2) := by
  have h' : ¬ tStart < tEnd := not_lt.mpr h.le
  simp only [pulseqIntegrate, if_pos h, if_neg h']
  refine Prod.ext ?_ (Prod.ext ?_ ?_) <;> simp <;> ring

theorem pulseq_integrate_swap_negates_witness :
    pulseqIntegrate
        [((0 : ℚ), PBlock.mk (some (PGradient.trap 10 (1/10000) (2/10000) (1/10000) 0)) none none)]
        1 1 0 =
      (-(pulseqIntegrate
          [((0 : ℚ), PBlock.mk (some (PGradient.trap 10 (1/10000) (2/10000) (1/10000) 0)) none none)]
          1 0 1).1,
        -(pulseqIntegrate
          [((0 : ℚ), PBlock.mk (some (PGradient.trap 10 (1/10000) (2/10000) (1/10000) 0)) none none)]
          1 0 1).2.1,
        -(pulseqIntegrate
          [((0 : ℚ), PBlock.mk (some (PGradient.trap 10 (1/10000) (2/10000) (1/10000) 0)) none none)]
          1 0 1).2.2) :=
  pulseq_integrate_swap_negates
    [((0 : ℚ), PBlock.mk (some (PGradient.trap 10 (1/10000) (2/10000) (1/10000) 0)) none none)]
    1 1 0 (by norm_num)

/-- C6: for any ordered times `a < b < c`, integrating over `[a, c]` yields the
sum of integrating over `[a, b]` and over `[b, c]` (exactly, over exact
arithmetic), for the trapezoid closed-form integrator `integrate_trap`, the
free-form sample-summation integrator `integrate_free`, and the dsv raster
integrator `Grad::integrate`. -/
theorem integration_additivity {α : Type} [LinearOrderedField α] [FloorRing α]
    (a b c rise flat fall dwell : α) (shape : List α) (g : Grad α)
    (hab : a < b) (hbc : b < c) (hd : 0 < dwell) (hts : 0 < g.time_step) :
    (integrate_trap a c rise flat fall =
        integrate_trap a b rise flat fall + integrate_trap b c rise flat fall) ∧
      (integrate_free a c shape dwell =
        integrate_free a b shape dwell + integrate_free b c shape dwell) ∧
      Grad.integrate g a c = Grad.integrate g a b + Grad.integrate g b c :=
  ⟨integrate_trap_additive a b c rise flat fall,
    integrate_free_additive a b c dwell shape hab.le hbc.le hd.le,
    grad_integrate_additive g a b c hab.le hbc.le hts⟩

theorem integration_additivity_witness :
    ((integrate_trap (0 : ℚ) 2 1 1 1 = integrate_trap 0 1 1 1 1 + integrate_trap 1 2 1 1 1) ∧
      (integrate_free (0 : ℚ) 2 [1, 2] 1 = integrate_free 0 1 [1, 2] 1 +
        integrate_free 1 2 [1, 2] 1) ∧
      Grad.integrate (Grad.mk [1, 2, 3] 1) (0 : ℚ) 2 =
        Grad.integrate (Grad.mk [1, 2, 3] 1) 0 1 + Grad.integrate (Grad.mk [1, 2, 3] 1) 1 2) :=
  integration_additivity 0 1 2 1 1 1 1 [1, 2] (Grad.mk [1, 2, 3] 1)
    (by norm_num) (by norm_num) (by norm_num) (by norm_num)

theorem integrate_trap_full_support_witness :
    ((10 : ℚ) * integrate_trap 0 (1/10000 + 2/10000 + 1/10000) (1/10000) (2/10000) (1/10000) =
        10 * ((1/10000) / 2 + 2/10000 + (1/10000) / 2)) ∧
      (10 : ℚ) * ((1/10000) / 2 + 2/10000 + (1/10000) / 2) = 3/1000 :=
  ⟨integrate_trap_full_support (1/10000) (2/10000) (1/10000) 10
      (by norm_num) (by norm_num) (by norm_num),
    by norm_num⟩

end Disseqt
